import Mathlib

/-!
Verification of the Shamir secret-sharing library `sharks`.

The current library (`src/lib.rs`, `src/share.rs`) works over the Galois
field GF(2^8) built from the irreducible polynomial x^8 + x^4 + x^3 + x + 1
(value 0x11b = 283).  The field engine, polynomial dealer and Lagrange
recoverer are embedded below; byte values are modelled as `Fin 256`,
carry-less (GF(2)) polynomial arithmetic on bit strings is modelled on `Nat`
with `^^^` (xor) as addition.
-/

/-! ## Carry-less multiplication of bit strings (GF(2)[X] on Nat) -/

/-- Carry-less (xor) multiplication with explicit fuel: the fuel bounds how
many low bits of the first operand are consumed. -/
def clmulAux : Nat → Nat → Nat → Nat
  | 0, _, _ => 0
  | fuel + 1, a, b => (if a % 2 = 1 then b else 0) ^^^ 2 * clmulAux fuel (a / 2) b

/-- Carry-less multiplication; 32 bits of fuel cover every operand that
appears in GF(2^8) arithmetic (products of bytes and small quotients). -/
def clmul (a b : Nat) : Nat := clmulAux 32 a b

theorem clmulAux_zero_left (f b : Nat) : clmulAux f 0 b = 0 := by
  induction f with
  | zero => rfl
  | succ f ih => simp [clmulAux, ih]

theorem clmulAux_zero_right (f a : Nat) : clmulAux f a 0 = 0 := by
  induction f generalizing a with
  | zero => rfl
  | succ f ih => simp [clmulAux, ih]

theorem two_mul_xor (x y : Nat) : 2 * (x ^^^ y) = 2 * x ^^^ 2 * y := by
  have h2 : ∀ z : Nat, 2 * z = z <<< 1 := by
    intro z; rw [Nat.shiftLeft_eq]; ring
  rw [h2, h2, h2]
  apply Nat.eq_of_testBit_eq
  intro i
  simp only [Nat.testBit_shiftLeft, Nat.testBit_xor]
  cases decide (1 ≤ i) <;> simp

/-- Fuel irrelevance: once the fuel covers all bits of the first operand the
result no longer depends on it. -/
theorem clmulAux_fuel_succ (f a b : Nat) (h : a < 2 ^ f) :
    clmulAux (f + 1) a b = clmulAux f a b := by
  induction f generalizing a with
  | zero =>
    interval_cases a
    simp [clmulAux]
  | succ f ih =>
    show (if a % 2 = 1 then b else 0) ^^^ 2 * clmulAux (f + 1) (a / 2) b = _
    rw [ih (a / 2) (by omega)]
    rfl

theorem clmulAux_fuel_le (f g a b : Nat) (h : a < 2 ^ f) (hfg : f ≤ g) :
    clmulAux g a b = clmulAux f a b := by
  induction g with
  | zero =>
    have : f = 0 := by omega
    subst this; rfl
  | succ g ih =>
    rcases Nat.eq_or_lt_of_le hfg with rfl | hlt
    · rfl
    · have hg : f ≤ g := by omega
      have ha : a < 2 ^ g := lt_of_lt_of_le h (Nat.pow_le_pow_right (by omega) hg)
      rw [clmulAux_fuel_succ g a b ha, ih hg]

theorem xor_mix (a b c d : Nat) :
    (a ^^^ b) ^^^ (c ^^^ d) = (a ^^^ c) ^^^ (b ^^^ d) := by
  apply Nat.eq_of_testBit_eq
  intro i
  simp only [Nat.testBit_xor]
  cases a.testBit i <;> cases b.testBit i <;> cases c.testBit i <;>
    cases d.testBit i <;> rfl

/-- Right linearity: carry-less multiplication distributes over xor in the
second operand. -/
theorem clmulAux_xor_right (f a x y : Nat) :
    clmulAux f a (x ^^^ y) = clmulAux f a x ^^^ clmulAux f a y := by
  induction f generalizing a with
  | zero => simp [clmulAux]
  | succ f ih =>
    show (if a % 2 = 1 then x ^^^ y else 0) ^^^ 2 * clmulAux f (a / 2) (x ^^^ y) =
      ((if a % 2 = 1 then x else 0) ^^^ 2 * clmulAux f (a / 2) x) ^^^
        ((if a % 2 = 1 then y else 0) ^^^ 2 * clmulAux f (a / 2) y)
    rw [ih (a / 2), two_mul_xor, xor_mix]
    rcases Nat.mod_two_eq_zero_or_one a with h | h <;> simp [h]

/-- Left linearity: carry-less multiplication distributes over xor in the
first operand. -/
theorem clmulAux_xor_left (f x y b : Nat) :
    clmulAux f (x ^^^ y) b = clmulAux f x b ^^^ clmulAux f y b := by
  induction f generalizing x y with
  | zero => simp [clmulAux]
  | succ f ih =>
    show (if (x ^^^ y) % 2 = 1 then b else 0) ^^^ 2 * clmulAux f ((x ^^^ y) / 2) b =
      ((if x % 2 = 1 then b else 0) ^^^ 2 * clmulAux f (x / 2) b) ^^^
        ((if y % 2 = 1 then b else 0) ^^^ 2 * clmulAux f (y / 2) b)
    rw [Nat.xor_div_two, ih, two_mul_xor, xor_mix]
    congr 1
    rcases Nat.mod_two_eq_zero_or_one x with hx | hx <;>
      rcases Nat.mod_two_eq_zero_or_one y with hy | hy <;>
        simp [Nat.xor_mod_two_eq_one, hx, hy] <;> omega

theorem clmulAux_two_mul_right (f a b : Nat) :
    clmulAux f a (2 * b) = 2 * clmulAux f a b := by
  induction f generalizing a with
  | zero => simp [clmulAux]
  | succ f ih =>
    show (if a % 2 = 1 then 2 * b else 0) ^^^ 2 * clmulAux f (a / 2) (2 * b) =
      2 * ((if a % 2 = 1 then b else 0) ^^^ 2 * clmulAux f (a / 2) b)
    rw [ih, two_mul_xor]
    rcases Nat.mod_two_eq_zero_or_one a with h | h <;> simp [h]

theorem xor_one_two_mul (k : Nat) : 2 * k ^^^ 1 = 2 * k + 1 := by
  apply Nat.eq_of_testBit_eq
  intro i
  cases i with
  | zero =>
    simp only [Nat.testBit_zero]
    have h1 : (2 * k ^^^ 1) % 2 = 1 := by rw [Nat.xor_mod_two_eq_one]; omega
    have h2 : (2 * k + 1) % 2 = 1 := by omega
    rw [h1, h2]
  | succ i =>
    rw [Nat.testBit_add_one, Nat.testBit_add_one, Nat.xor_div_two]
    have h : 2 * k / 2 ^^^ 1 / 2 = (2 * k + 1) / 2 := by
      have h1 : 2 * k / 2 = k := by omega
      have h2 : (1 : Nat) / 2 = 0 := by norm_num
      rw [h1, h2, Nat.xor_zero]
      omega
    rw [h]

/-- Binary decomposition as xor: `n = 2 * (n / 2) ^^^ n % 2`. -/
theorem two_mul_div_xor_mod (n : Nat) : 2 * (n / 2) ^^^ n % 2 = n := by
  rcases Nat.mod_two_eq_zero_or_one n with h | h <;> rw [h]
  · rw [Nat.xor_zero]; omega
  · rw [xor_one_two_mul]; omega

theorem clmul_zero_left (b : Nat) : clmul 0 b = 0 := clmulAux_zero_left 32 b

theorem clmul_zero_right (a : Nat) : clmul a 0 = 0 := clmulAux_zero_right 32 a

theorem clmul_xor_left (x y b : Nat) :
    clmul (x ^^^ y) b = clmul x b ^^^ clmul y b := clmulAux_xor_left 32 x y b

theorem clmul_xor_right (a x y : Nat) :
    clmul a (x ^^^ y) = clmul a x ^^^ clmul a y := clmulAux_xor_right 32 a x y

theorem clmul_two_mul_right (a b : Nat) :
    clmul a (2 * b) = 2 * clmul a b := clmulAux_two_mul_right 32 a b

/-- One unfolding step of `clmul` on the low bit of the first operand. -/
theorem clmul_step (a b : Nat) (h : a < 2 ^ 32) :
    clmul a b = (if a % 2 = 1 then b else 0) ^^^ 2 * clmul (a / 2) b := by
  show clmulAux 32 a b = _
  rw [← clmulAux_fuel_le 32 33 a b h (by omega)]
  rfl

theorem clmul_one_left (b : Nat) : clmul 1 b = b := by
  rw [clmul_step 1 b (by norm_num)]
  simp [clmul_zero_left]

theorem clmul_two_mul_left (a b : Nat) (h : a < 2 ^ 31) :
    clmul (2 * a) b = 2 * clmul a b := by
  rw [clmul_step (2 * a) b (by
    have : (2:Nat) ^ 32 = 2 * 2 ^ 31 := by norm_num
    omega)]
  have h1 : 2 * a % 2 = 0 := by omega
  have h2 : 2 * a / 2 = a := by omega
  simp [h1, h2]

theorem clmul_one_right (a : Nat) (h : a < 2 ^ 32) : clmul a 1 = a := by
  induction a using Nat.strong_induction_on with
  | _ a ih =>
    rcases Nat.eq_zero_or_pos a with rfl | hpos
    · exact clmul_zero_left 1
    · rw [clmul_step a 1 h]
      rw [ih (a / 2) (by omega) (by omega)]
      rcases Nat.mod_two_eq_zero_or_one a with hm | hm
      · simp only [hm]
        norm_num
        omega
      · simp only [hm, if_pos]
        rw [Nat.xor_comm, xor_one_two_mul]
        omega

/-- Size bound: the product of an `(m+1)`-bit and an `(n+1)`-bit string has
at most `m + n + 1` bits. -/
theorem clmul_lt (a b m n : Nat) (hm : m ≤ 15)
    (ha : a < 2 ^ (m + 1)) (hb : b < 2 ^ (n + 1)) :
    clmul a b < 2 ^ (m + n + 1) := by
  induction a using Nat.strong_induction_on generalizing m with
  | _ a ih =>
    rcases Nat.eq_zero_or_pos a with rfl | hpos
    · rw [clmul_zero_left]; positivity
    · rw [clmul_step a b (lt_of_lt_of_le ha (Nat.pow_le_pow_right (by omega) (by omega)))]
      have hstep : (if a % 2 = 1 then b else 0) < 2 ^ (m + n + 1) := by
        have : (2:Nat) ^ (n + 1) ≤ 2 ^ (m + n + 1) := Nat.pow_le_pow_right (by omega) (by omega)
        rcases Nat.mod_two_eq_zero_or_one a with hm2 | hm2 <;> simp [hm2] <;> omega
      rcases Nat.eq_zero_or_pos m with rfl | hmpos
      · have ha2 : a / 2 = 0 := by omega
        rw [ha2, clmul_zero_left]
        simpa using hstep
      · have hrec : clmul (a / 2) b < 2 ^ (m - 1 + n + 1) := by
          apply ih (a / 2) (by omega) (m - 1) (by omega)
          have : (2:Nat) ^ (m + 1) = 2 * 2 ^ (m - 1 + 1) := by
            rw [← Nat.pow_succ']
            congr 1
            omega
          omega
        apply Nat.xor_lt_two_pow hstep
        have : (2:Nat) ^ (m + n + 1) = 2 * 2 ^ (m - 1 + n + 1) := by
          rw [← Nat.pow_succ']
          congr 1
          omega
        omega

/-- Expansion of `clmul` on the low bit of the second operand. -/
theorem clmul_step_right (a b : Nat) (h : a < 2 ^ 31) :
    clmul a b = (if b % 2 = 1 then a else 0) ^^^ 2 * clmul a (b / 2) := by
  conv_lhs => rw [← two_mul_div_xor_mod b]
  rw [clmul_xor_right, clmul_two_mul_right]
  rcases Nat.mod_two_eq_zero_or_one b with hb | hb
  · rw [hb, clmul_zero_right, Nat.xor_zero, if_neg (by omega), Nat.xor_comm, Nat.xor_zero]
  · rw [hb, clmul_one_right a (by
      have : (2:Nat) ^ 31 ≤ 2 ^ 32 := by norm_num
      omega), if_pos rfl, Nat.xor_comm]

theorem clmul_comm (a b : Nat) (ha : a < 2 ^ 16) (hb : b < 2 ^ 16) :
    clmul a b = clmul b a := by
  induction a using Nat.strong_induction_on generalizing b with
  | _ a ih =>
    rcases Nat.eq_zero_or_pos a with rfl | hpos
    · rw [clmul_zero_left, clmul_zero_right]
    · rw [clmul_step a b (by
        have : (2:Nat) ^ 16 ≤ 2 ^ 32 := by norm_num
        omega)]
      rw [clmul_step_right b a (by
        have : (2:Nat) ^ 16 ≤ 2 ^ 31 := by norm_num
        omega)]
      rw [ih (a / 2) (by omega) b (by omega) hb]

theorem clmul_assoc (a b c : Nat) (ha : a < 2 ^ 16) (hb : b < 2 ^ 12) (hc : c < 2 ^ 12) :
    clmul (clmul a b) c = clmul a (clmul b c) := by
  induction a using Nat.strong_induction_on with
  | _ a ih =>
    rcases Nat.eq_zero_or_pos a with rfl | hpos
    · rw [clmul_zero_left, clmul_zero_left, clmul_zero_left]
    · have hab : clmul (a / 2) b < 2 ^ 27 := by
        simpa using clmul_lt (a / 2) b 15 11 (by omega) (by omega) (by omega)
      rw [clmul_step a b (by
        have : (2:Nat) ^ 16 ≤ 2 ^ 32 := by norm_num
        omega)]
      rw [clmul_xor_left, clmul_two_mul_left (clmul (a / 2) b) c (by
        have : (2:Nat) ^ 27 ≤ 2 ^ 31 := by norm_num
        omega)]
      rw [ih (a / 2) (by omega) (by omega)]
      rw [clmul_step a (clmul b c) (by
        have : (2:Nat) ^ 16 ≤ 2 ^ 32 := by norm_num
        omega)]
      rcases Nat.mod_two_eq_zero_or_one a with hm | hm
      · simp [hm, clmul_zero_left]
      · simp [hm]

theorem xor_shiftRight (x y k : Nat) : (x ^^^ y) >>> k = x >>> k ^^^ y >>> k := by
  apply Nat.eq_of_testBit_eq
  intro i
  simp [Nat.testBit_shiftRight, Nat.testBit_xor]

/-- Xor with a low-bit string cannot destroy a high bit. -/
theorem xor_high_le (k z w : Nat) (hz : 2 ^ k ≤ z) (hw : w < 2 ^ k) :
    2 ^ k ≤ z ^^^ w := by
  have hzk : z >>> k ≠ 0 := by
    rw [Nat.shiftRight_eq_div_pow]
    have : z / 2 ^ k ≥ 1 := (Nat.one_le_div_iff (Nat.two_pow_pos k)).mpr hz
    omega
  have hwk : w >>> k = 0 := by
    rw [Nat.shiftRight_eq_div_pow]
    exact Nat.div_eq_of_lt hw
  have hxk : (z ^^^ w) >>> k ≠ 0 := by
    rw [xor_shiftRight, hwk, Nat.xor_zero]
    exact hzk
  rw [Nat.shiftRight_eq_div_pow] at hxk
  by_contra hlt
  exact hxk (Nat.div_eq_of_lt (by omega))

/-- The reduction polynomial x^8 + x^4 + x^3 + x + 1 of GF(2^8) as a bit string. -/
def gfPoly : Nat := 283

/-- Any nonzero carry-less multiple of the reduction polynomial is at least 256. -/
theorem clmul_gfPoly_ge (q : Nat) (hq1 : q ≠ 0) (hq2 : q < 2 ^ 16) :
    256 ≤ clmul q gfPoly := by
  induction q using Nat.strong_induction_on with
  | _ q ih =>
    rcases Nat.eq_zero_or_pos (q / 2) with hq2z | hq2pos
    · have hq : q = 1 := by omega
      subst hq
      rw [clmul_one_left]
      norm_num [gfPoly]
    · rw [clmul_step q gfPoly (by
        have : (2:Nat) ^ 16 ≤ 2 ^ 32 := by norm_num
        omega)]
      have hrec : 256 ≤ clmul (q / 2) gfPoly := ih (q / 2) (by omega) (by omega) (by omega)
      have hdouble : 2 ^ 9 ≤ 2 * clmul (q / 2) gfPoly := by omega
      have hsmall : (if q % 2 = 1 then gfPoly else 0) < 2 ^ 9 := by
        rcases Nat.mod_two_eq_zero_or_one q with h | h <;> simp [h, gfPoly]
      have := xor_high_le 9 (2 * clmul (q / 2) gfPoly) (if q % 2 = 1 then gfPoly else 0)
        hdouble hsmall
      rw [Nat.xor_comm] at this
      omega

/-- Bitwise reduction of a GF(2) polynomial modulo `gfPoly`: fuel `f` clears
bits `f + 7, …, 8` from the top down. -/
def polyModAux : Nat → Nat → Nat
  | 0, x => x
  | f + 1, x => polyModAux f (if x.testBit (f + 8) then x ^^^ gfPoly <<< f else x)

/-- Reduction modulo `gfPoly` of a product of two bytes (15 significant bits). -/
def polyMod (x : Nat) : Nat := polyModAux 7 x

theorem polyModAux_succ (f x : Nat) :
    polyModAux (f + 1) x =
      polyModAux f (if x.testBit (f + 8) then x ^^^ gfPoly <<< f else x) := rfl

theorem polyModAux_small (f x : Nat) (h : x < 256) : polyModAux f x = x := by
  induction f with
  | zero => rfl
  | succ f ih =>
    have hb : x.testBit (f + 8) = false := by
      apply Nat.testBit_lt_two_pow
      have h8 : (256:Nat) ≤ 2 ^ (f + 8) := by
        have := Nat.pow_le_pow_right (show 0 < 2 by omega) (show 8 ≤ f + 8 by omega)
        simpa using this
      omega
    rw [polyModAux_succ, hb]
    simpa using ih

theorem polyModAux_lt (f x : Nat) (h : x < 2 ^ (f + 8)) : polyModAux f x < 256 := by
  induction f generalizing x with
  | zero => exact h
  | succ f ih =>
    rw [polyModAux_succ]
    apply ih
    have hpow : (2:Nat) ^ (f + 1 + 8) = 2 * 2 ^ (f + 8) := by
      have he : f + 1 + 8 = (f + 8) + 1 := by omega
      rw [he, Nat.pow_succ']
    have hd2 : x / 2 ^ (f + 8) < 2 := by
      rw [Nat.div_lt_iff_lt_mul (Nat.two_pow_pos (f + 8))]
      omega
    cases hbit : x.testBit (f + 8) with
    | false =>
      simp only [Bool.false_eq_true, if_false]
      rw [Nat.testBit_to_div_mod] at hbit
      have hne := of_decide_eq_false hbit
      have hz : x / 2 ^ (f + 8) = 0 := by
        generalize hgen : x / 2 ^ (f + 8) = d at hne hd2 ⊢
        omega
      rw [← Nat.div_lt_one_iff (Nat.two_pow_pos (f + 8)), hz]
      omega
    | true =>
      simp only [if_true]
      rw [Nat.testBit_to_div_mod] at hbit
      have hone := of_decide_eq_true hbit
      have hxd : x / 2 ^ (f + 8) = 1 := by
        generalize hgen : x / 2 ^ (f + 8) = d at hone hd2 ⊢
        omega
      have hgd : gfPoly <<< f / 2 ^ (f + 8) = 1 := by
        rw [Nat.shiftLeft_eq]
        show gfPoly * 2 ^ f / 2 ^ (f + 8) = 1
        have he : (2:Nat) ^ (f + 8) = 2 ^ f * 2 ^ 8 := by rw [← Nat.pow_add]
        rw [he, Nat.mul_comm gfPoly (2 ^ f), Nat.mul_div_mul_left _ _ (Nat.two_pow_pos f)]
        norm_num [gfPoly]
      have hyd : (x ^^^ gfPoly <<< f) / 2 ^ (f + 8) = 0 := by
        have hsh := xor_shiftRight x (gfPoly <<< f) (f + 8)
        rw [Nat.shiftRight_eq_div_pow, Nat.shiftRight_eq_div_pow,
          Nat.shiftRight_eq_div_pow, hxd, hgd, Nat.xor_self] at hsh
        exact hsh
      rw [← Nat.div_lt_one_iff (Nat.two_pow_pos (f + 8)), hyd]
      omega

/-- Reduction is linear over xor (it is GF(2)-linear). -/
theorem polyModAux_xor (f x y : Nat) :
    polyModAux f (x ^^^ y) = polyModAux f x ^^^ polyModAux f y := by
  induction f generalizing x y with
  | zero => rfl
  | succ f ih =>
    have hpull : ∀ z : Nat,
        (if z.testBit (f + 8) then z ^^^ gfPoly <<< f else z) =
          z ^^^ (if z.testBit (f + 8) then gfPoly <<< f else 0) := by
      intro z
      cases z.testBit (f + 8) <;> simp
    rw [polyModAux_succ, polyModAux_succ, polyModAux_succ, ← ih, hpull, hpull, hpull]
    congr 1
    rw [xor_mix]
    congr 1
    rw [Nat.testBit_xor]
    cases x.testBit (f + 8) <;> cases y.testBit (f + 8) <;> simp

theorem clmul_pow2_left (n b : Nat) (hn : n ≤ 30) : clmul (2 ^ n) b = 2 ^ n * b := by
  induction n with
  | zero => rw [pow_zero, one_mul, clmul_one_left]
  | succ n ih =>
    rw [Nat.pow_succ', clmul_two_mul_left (2 ^ n) b (by
      have : (2:Nat) ^ n < 2 ^ 31 := Nat.pow_lt_pow_right (by omega) (by omega)
      omega)]
    rw [ih (by omega)]
    ring

/-- Reduction only ever xors in shifted copies of `gfPoly`: the output differs
from the input by a carry-less multiple of `gfPoly`. -/
theorem polyModAux_spec (f x : Nat) (hf : f ≤ 15) :
    ∃ q, q < 2 ^ f ∧ polyModAux f x = x ^^^ clmul q gfPoly := by
  induction f generalizing x with
  | zero =>
    exact ⟨0, by omega, by rw [clmul_zero_left, Nat.xor_zero]; rfl⟩
  | succ f ih =>
    rw [polyModAux_succ]
    have hshift : gfPoly <<< f = clmul (2 ^ f) gfPoly := by
      rw [Nat.shiftLeft_eq, Nat.mul_comm, clmul_pow2_left f gfPoly (by omega)]
    cases hbit : x.testBit (f + 8) with
    | false =>
      simp only [Bool.false_eq_true, if_false]
      obtain ⟨q, hq, hspec⟩ := ih x (by omega)
      refine ⟨q, ?_, hspec⟩
      have : (2:Nat) ^ f ≤ 2 ^ (f + 1) := Nat.pow_le_pow_right (by omega) (by omega)
      omega
    | true =>
      simp only [if_true]
      obtain ⟨q, hq, hspec⟩ := ih (x ^^^ gfPoly <<< f) (by omega)
      refine ⟨2 ^ f ^^^ q, ?_, ?_⟩
      · apply Nat.xor_lt_two_pow
        · exact Nat.pow_lt_pow_right (by omega) (by omega)
        · have : (2:Nat) ^ f < 2 ^ (f + 1) := Nat.pow_lt_pow_right (by omega) (by omega)
          omega
      · rw [hspec, hshift, Nat.xor_assoc, ← clmul_xor_left]

/-- Two bytes that differ by a carry-less multiple of `gfPoly` are equal
(`gfPoly` has degree 8, so its nonzero multiples need at least 9 bits). -/
theorem byte_eq_of_xor_multiple (x y : Nat) (hx : x < 256) (hy : y < 256)
    (h : ∃ q, q < 2 ^ 16 ∧ x ^^^ y = clmul q gfPoly) : x = y := by
  obtain ⟨q, hq, hxy⟩ := h
  rcases Nat.eq_zero_or_pos q with rfl | hqpos
  · rw [clmul_zero_left] at hxy
    exact Nat.xor_eq_zero.mp hxy
  · exfalso
    have hge := clmul_gfPoly_ge q (by omega) hq
    have hlt := Nat.xor_lt_two_pow (show x < 2 ^ 8 by omega) (show y < 2 ^ 8 by omega)
    rw [hxy] at hlt
    have : (2:Nat) ^ 8 = 256 := by norm_num
    omega

theorem byte_eq_of_both_forms (u v x q1 q2 : Nat) (hu : u < 256) (hv : v < 256)
    (hq1 : q1 < 2 ^ 16) (hq2 : q2 < 2 ^ 16)
    (h1 : u = x ^^^ clmul q1 gfPoly) (h2 : v = x ^^^ clmul q2 gfPoly) : u = v := by
  apply byte_eq_of_xor_multiple u v hu hv
  refine ⟨q1 ^^^ q2, Nat.xor_lt_two_pow hq1 hq2, ?_⟩
  rw [h1, h2, xor_mix, Nat.xor_self, Nat.zero_xor, clmul_xor_left]

/-! ## The field GF(2^8) on bytes

Modelled from the spec: the field engine of the library (`src/field.rs`, not
present in this tree; spec section 4.1) implements GF(2^8) over the
irreducible polynomial x^8 + x^4 + x^3 + x + 1 with xor as addition and
log/exponent-table lookups realising polynomial multiplication modulo that
polynomial.  Here multiplication is given directly as carry-less
multiplication followed by reduction, which is the arithmetic the tables
tabulate. -/

/-- Multiplication of two bytes in GF(2^8). -/
def gmulNat (a b : Nat) : Nat := polyMod (clmul a b)

theorem gmulNat_lt (a b : Nat) (ha : a < 256) (hb : b < 256) : gmulNat a b < 256 := by
  apply polyModAux_lt
  have := clmul_lt a b 7 7 (by omega) (by omega) (by omega)
  simpa using this

/-- A field element of GF(2^8): one byte. -/
@[ext]
structure GF256 where
  val : Fin 256
deriving DecidableEq

instance : Zero GF256 := ⟨⟨0⟩⟩

instance : One GF256 := ⟨⟨1⟩⟩

instance : Inhabited GF256 := ⟨0⟩

/-- Field addition: xor of the two bytes (spec section 4.1). -/
def gadd (a b : GF256) : GF256 :=
  ⟨⟨a.val.val ^^^ b.val.val, by
    have := Nat.xor_lt_two_pow (show a.val.val < 2 ^ 8 by omega) (show b.val.val < 2 ^ 8 by omega)
    omega⟩⟩

instance : Add GF256 := ⟨gadd⟩

instance : Neg GF256 := ⟨fun a => a⟩

/-- Field multiplication: carry-less product reduced modulo `gfPoly`. -/
def gmul (a b : GF256) : GF256 :=
  ⟨⟨gmulNat a.val.val b.val.val, gmulNat_lt _ _ (by omega) (by omega)⟩⟩

instance : Mul GF256 := ⟨gmul⟩

theorem gadd_def (a b : GF256) : (a + b).val.val = a.val.val ^^^ b.val.val := rfl

theorem gmul_def (a b : GF256) : (a * b).val.val = gmulNat a.val.val b.val.val := rfl

theorem gf_val_lt (a : GF256) : a.val.val < 256 := a.val.isLt

theorem gf_eq_of_val (a b : GF256) (h : a.val.val = b.val.val) : a = b := by
  ext
  exact h

theorem gmulNat_comm (a b : Nat) (ha : a < 256) (hb : b < 256) :
    gmulNat a b = gmulNat b a := by
  unfold gmulNat
  rw [clmul_comm a b (by omega) (by omega)]

theorem gmulNat_zero_left (b : Nat) : gmulNat 0 b = 0 := by
  unfold gmulNat
  rw [clmul_zero_left]
  exact polyModAux_small 7 0 (by omega)

theorem gmulNat_zero_right (a : Nat) : gmulNat a 0 = 0 := by
  unfold gmulNat
  rw [clmul_zero_right]
  exact polyModAux_small 7 0 (by omega)

theorem gmulNat_one_left (b : Nat) (hb : b < 256) : gmulNat 1 b = b := by
  unfold gmulNat
  rw [clmul_one_left]
  exact polyModAux_small 7 b hb

theorem gmulNat_one_right (a : Nat) (ha : a < 256) : gmulNat a 1 = a := by
  rw [gmulNat_comm a 1 ha (by omega)]
  exact gmulNat_one_left a ha

theorem gmulNat_xor_right (a x y : Nat) :
    gmulNat a (x ^^^ y) = gmulNat a x ^^^ gmulNat a y := by
  unfold gmulNat polyMod
  rw [clmul_xor_right, polyModAux_xor]

theorem gmulNat_xor_left (x y b : Nat) :
    gmulNat (x ^^^ y) b = gmulNat x b ^^^ gmulNat y b := by
  unfold gmulNat polyMod
  rw [clmul_xor_left, polyModAux_xor]

theorem gmulNat_assoc (a b c : Nat) (ha : a < 256) (hb : b < 256) (hc : c < 256) :
    gmulNat (gmulNat a b) c = gmulNat a (gmulNat b c) := by
  have h12 : (2:Nat) ^ 12 = 4096 := by norm_num
  have h16 : (2:Nat) ^ 16 = 65536 := by norm_num
  have h15 : (2:Nat) ^ 15 = 32768 := by norm_num
  have h7 : (2:Nat) ^ 7 = 128 := by norm_num
  have hP : gfPoly < 4096 := by norm_num [gfPoly]
  have hab : clmul a b < 2 ^ 15 := by
    simpa using clmul_lt a b 7 7 (by omega) (by omega) (by omega)
  have hbc : clmul b c < 2 ^ 15 := by
    simpa using clmul_lt b c 7 7 (by omega) (by omega) (by omega)
  obtain ⟨q1, hq1, h1⟩ := polyModAux_spec 7 (clmul a b) (by omega)
  obtain ⟨q2, hq2, h2⟩ := polyModAux_spec 7 (clmul b c) (by omega)
  have h1p : polyMod (clmul a b) = clmul a b ^^^ clmul q1 gfPoly := h1
  have h2p : polyMod (clmul b c) = clmul b c ^^^ clmul q2 gfPoly := h2
  obtain ⟨r1, hr1, hL⟩ := polyModAux_spec 7 (clmul (polyMod (clmul a b)) c) (by omega)
  obtain ⟨r2, hr2, hR⟩ := polyModAux_spec 7 (clmul a (polyMod (clmul b c))) (by omega)
  have hq1c : clmul q1 c < 2 ^ 15 := by
    have := clmul_lt q1 c 6 7 (by omega) (by omega) (by omega)
    have h14 : (2:Nat) ^ 14 = 16384 := by norm_num
    omega
  have haq2 : clmul a q2 < 2 ^ 15 := by
    have := clmul_lt a q2 7 6 (by omega) (by omega) (by omega)
    have h14 : (2:Nat) ^ 14 = 16384 := by norm_num
    omega
  have hswap : clmul (clmul q1 gfPoly) c = clmul (clmul q1 c) gfPoly := by
    rw [clmul_assoc q1 gfPoly c (by omega) (by omega) (by omega),
      clmul_comm gfPoly c (by omega) (by omega),
      ← clmul_assoc q1 c gfPoly (by omega) (by omega) (by omega)]
  have hLform : gmulNat (gmulNat a b) c =
      clmul a (clmul b c) ^^^ clmul (clmul q1 c ^^^ r1) gfPoly := by
    show polyModAux 7 (clmul (polyMod (clmul a b)) c) = _
    rw [hL, h1p, clmul_xor_left, hswap, Nat.xor_assoc, ← clmul_xor_left,
      clmul_assoc a b c (by omega) (by omega) (by omega)]
  have hRform : gmulNat a (gmulNat b c) =
      clmul a (clmul b c) ^^^ clmul (clmul a q2 ^^^ r2) gfPoly := by
    show polyModAux 7 (clmul a (polyMod (clmul b c))) = _
    rw [hR, h2p, clmul_xor_right, ← clmul_assoc a q2 gfPoly (by omega) (by omega) (by omega),
      Nat.xor_assoc, ← clmul_xor_left]
  apply byte_eq_of_both_forms _ _ (clmul a (clmul b c))
    (clmul q1 c ^^^ r1) (clmul a q2 ^^^ r2)
    (gmulNat_lt _ _ (gmulNat_lt a b ha hb) hc)
    (gmulNat_lt _ _ ha (gmulNat_lt b c hb hc))
    (by
      have := Nat.xor_lt_two_pow hq1c (show r1 < 2 ^ 15 by omega)
      omega)
    (by
      have := Nat.xor_lt_two_pow haq2 (show r2 < 2 ^ 15 by omega)
      omega)
    hLform hRform

set_option maxHeartbeats 2000000 in
instance : CommRing GF256 where
  add := (· + ·)
  mul := (· * ·)
  zero := 0
  one := 1
  neg a := a
  nsmul := nsmulRec
  zsmul := zsmulRec
  add_assoc a b c := gf_eq_of_val _ _ (by
    show (a.val.val ^^^ b.val.val) ^^^ c.val.val = a.val.val ^^^ (b.val.val ^^^ c.val.val)
    exact Nat.xor_assoc _ _ _)
  zero_add a := gf_eq_of_val _ _ (Nat.zero_xor _)
  add_zero a := gf_eq_of_val _ _ (Nat.xor_zero _)
  add_comm a b := gf_eq_of_val _ _ (Nat.xor_comm _ _)
  neg_add_cancel a := gf_eq_of_val _ _ (Nat.xor_self _)
  mul_assoc a b c := gf_eq_of_val _ _
    (gmulNat_assoc _ _ _ (gf_val_lt a) (gf_val_lt b) (gf_val_lt c))
  one_mul a := gf_eq_of_val _ _ (gmulNat_one_left _ (gf_val_lt a))
  mul_one a := gf_eq_of_val _ _ (gmulNat_one_right _ (gf_val_lt a))
  mul_comm a b := gf_eq_of_val _ _ (gmulNat_comm _ _ (gf_val_lt a) (gf_val_lt b))
  left_distrib a b c := gf_eq_of_val _ _ (gmulNat_xor_right _ _ _)
  right_distrib a b c := gf_eq_of_val _ _ (gmulNat_xor_left _ _ _)
  zero_mul a := gf_eq_of_val _ _ (gmulNat_zero_left _)
  mul_zero a := gf_eq_of_val _ _ (gmulNat_zero_right _)

/-- Multiplicative inverse in GF(2^8), computed as a^254 (Fermat in the group
of 255 nonzero elements); this is the value the spec's log/exponent tables
return for division (spec section 4.1). -/
def ginv (a : GF256) : GF256 :=
  let a2 := gmul a a
  let a3 := gmul a2 a
  let a6 := gmul a3 a3
  let a7 := gmul a6 a
  let a14 := gmul a7 a7
  let a15 := gmul a14 a
  let a30 := gmul a15 a15
  let a31 := gmul a30 a
  let a62 := gmul a31 a31
  let a63 := gmul a62 a
  let a126 := gmul a63 a63
  let a127 := gmul a126 a
  gmul a127 a127

set_option maxHeartbeats 8000000 in
set_option maxRecDepth 4000 in
theorem ginv_cancel_fin : ∀ v : Fin 256, v = 0 ∨ gmul ⟨v⟩ (ginv ⟨v⟩) = 1 := by decide

theorem gf_mul_inv_cancel (a : GF256) (h : a ≠ 0) : a * ginv a = 1 := by
  obtain ⟨v⟩ := a
  rcases ginv_cancel_fin v with hv | hv
  · exact absurd (by rw [hv]; rfl) h
  · exact hv

theorem gf_isField : IsField GF256 where
  exists_pair_ne := ⟨0, 1, by decide⟩
  mul_comm := mul_comm
  mul_inv_cancel h := ⟨ginv _, gf_mul_inv_cancel _ h⟩

noncomputable instance : Field GF256 := gf_isField.toField

theorem gf_inv_eq (a : GF256) (h : a ≠ 0) : a⁻¹ = ginv a :=
  inv_eq_of_mul_eq_one_right (gf_mul_inv_cancel a h)

/-- GF(2^8) has characteristic 2: every element is its own negative. -/
theorem gf_add_self (a : GF256) : a + a = 0 := gf_eq_of_val _ _ (Nat.xor_self _)

theorem gf_neg_eq (a : GF256) : -a = a := rfl

theorem gf_sub_eq (a b : GF256) : a - b = a + b := by
  rw [sub_eq_add_neg, gf_neg_eq]

/-- Field division as the library's `div` computes it: multiply by the table
inverse (spec section 4.1); total function, aligned with `/` away from 0. -/
def gdiv (a b : GF256) : GF256 := gmul a (ginv b)

theorem gdiv_eq (a b : GF256) (h : b ≠ 0) : gdiv a b = a / b := by
  rw [div_eq_mul_inv, gf_inv_eq b h]
  rfl

/-! ## The library's data model and operations -/

/-- A share: one evaluation point of the secret-encoding polynomials.
Translated from `pub struct Share { x: GF256, y: Vec<GF256> }` in
src/share.rs. -/
structure Share where
  x : GF256
  y : List GF256
deriving DecidableEq

/-- List lookup with the panic-free default used throughout the model. -/
def getSh (shares : List Share) (i : Nat) : Share := shares.getD i ⟨0, []⟩

/-- Translated from `From<Share> for Vec<u8>` in src/share.rs: the x byte
followed by the y bytes in order. -/
def shareToBytes (s : Share) : List (Fin 256) := s.x.val :: s.y.map GF256.val

/-- Translated from `From<&[u8]> for Share` in src/share.rs: the first byte
becomes `x`, the remaining bytes become `y` in order.  Indexing `s[0]` on an
empty slice panics, modelled as `none`; no other validation is performed. -/
def shareFromBytes (b : List (Fin 256)) : Option Share :=
  match b with
  | [] => none
  | x :: rest => some ⟨⟨x⟩, rest.map (fun v => ⟨v⟩)⟩

/-- Field subtraction: in characteristic 2 it is the same xor as addition
(spec section 4.1). -/
def gsub (a b : GF256) : GF256 := gadd a b

theorem gsub_eq (a b : GF256) : gsub a b = a - b := by
  rw [gf_sub_eq]
  rfl

/-- Translated from `pub struct Sharks(pub u8)` in src/lib.rs: the
configuration is a bare public threshold byte; construction performs no
validation and cannot fail. -/
structure Sharks where
  threshold : Fin 256

/-- Byte value of a natural number (used for the dealer's x-coordinates). -/
def gfOfNat (n : Nat) : GF256 := ⟨⟨n % 256, Nat.mod_lt _ (by omega)⟩⟩

/-- Modelled from the spec: Horner evaluation of a polynomial whose
coefficients are listed highest degree first (spec section 4.2); this is the
fold performed by the missing GF(2^8) `get_evaluator` in src/math.rs. -/
def hornerEval (coeffs : List GF256) (x : GF256) : GF256 :=
  coeffs.foldl (fun acc c => acc * x + c) 0

/-- Modelled from the spec: the missing GF(2^8) `random_polynomial` of
src/math.rs builds, for a secret byte `s` and threshold `k`, the ordered list
of `k` coefficients, highest degree first: `k - 1` sampled field elements
followed by `s` as the degree-0 coefficient (spec section 4.2). -/
def random_polynomial (s : GF256) (k : Nat) (sample : Nat → GF256) : List GF256 :=
  (List.range (k - 1)).map sample ++ [s]

/-- Modelled from the spec: the missing GF(2^8) `get_evaluator` of
src/math.rs evaluates every polynomial at x = 1, 2, …, 255 in increasing
order, one `Share` per x; x = 0 is never emitted (spec section 4.2). -/
def get_evaluator (polys : List (List GF256)) : List Share :=
  (List.range 255).map (fun i =>
    { x := gfOfNat (i + 1), y := polys.map (fun p => hornerEval p (gfOfNat (i + 1))) })

/-- Translated from `Sharks::dealer_rng` in src/lib.rs: one polynomial per
secret byte, then the evaluator.  The injected randomness source gives, for
chunk index `c`, the stream of sampled coefficients. -/
def dealer_rng (k : Nat) (secret : List GF256) (rand : Nat → Nat → GF256) : List Share :=
  get_evaluator ((List.range secret.length).map
    (fun c => random_polynomial (secret.getD c 0) k (rand c)))

/-- The number of pairwise-distinct x-coordinates in a share list: the size
of the `HashSet` of keys built by `Sharks::recover` in src/lib.rs. -/
def distinctX (shares : List Share) : Nat := (shares.map Share.x).dedup.length

/-- Modelled from the spec: the Lagrange basis factor of share `i` evaluated
at x = 0 — the field product, over the shares `j` whose x-coordinate differs
from share `i`'s, of `x_j / (x_j - x_i)` (spec section 4.3). -/
def basisAt (shares : List Share) (i : Nat) : GF256 :=
  (((List.range shares.length).filter
      (fun j => (getSh shares j).x ≠ (getSh shares i).x)).map
    (fun j => gdiv (getSh shares j).x (gsub (getSh shares j).x (getSh shares i).x))).prod

/-- Modelled from the spec: the missing `interpolate` of src/math.rs.  The
chunk count is the first share's `y` length (`shares[0]` on an empty slice
panics — `none`); indexing a share whose `y` is shorter than that also panics
— `none`.  Otherwise the byte of chunk `c` is the field sum over all input
shares `i` of `basis_i * y_i[c]` (spec section 4.3). -/
def interpolate (shares : List Share) : Option (List GF256) :=
  match shares with
  | [] => none
  | s0 :: _ =>
    if shares.all (fun s => s0.y.length ≤ s.y.length) then
      some ((List.range s0.y.length).map (fun c =>
        ((List.range shares.length).map
          (fun i => basisAt shares i * (getSh shares i).y.getD c 0)).sum))
    else none

/-- Translated from `Sharks::recover` in src/lib.rs: build the set of
distinct x-coordinates; if its size is below the threshold return the
insufficient-shares error, otherwise interpolate over the full,
non-deduplicated share list.  The outer `Option` is `none` exactly when the
Rust code would panic inside `interpolate`. -/
def recover (k : Nat) (shares : List Share) : Option (Except Unit (List GF256)) :=
  if distinctX shares < k then some (.error ())
  else (interpolate shares).map .ok

/-- `Sharks::recover` with the threshold taken from the configuration. -/
def sharksRecover (cfg : Sharks) (shares : List Share) : Option (Except Unit (List GF256)) :=
  recover cfg.threshold.val shares

/-- `Sharks::dealer_rng` with the threshold taken from the configuration. -/
def sharksDealer (cfg : Sharks) (secret : List GF256) (rand : Nat → Nat → GF256) :
    List Share :=
  dealer_rng cfg.threshold.val secret rand

/-- Translated from `compute_coeffs` in src/math.rs (the big-prime historical
variant): `k - 1` coefficients drawn from the `Uniform::new(1, p)` sampler —
injected here as the function `sample` — followed by the secret `s`; the
modulus `p` is returned alongside. -/
def compute_coeffs (s k p : Nat) (sample : Nat → Nat) : Nat × List Nat :=
  (p, (List.range (k - 1)).map sample ++ [s])

/-! ## Serialization claims -/

theorem shareFromBytes_toBytes (s : Share) :
    shareFromBytes (shareToBytes s) = some s := by
  cases s with
  | mk x y =>
    have h : shareFromBytes (shareToBytes (Share.mk x y)) =
        some (Share.mk (GF256.mk x.val) ((y.map GF256.val).map (fun v => GF256.mk v))) := rfl
    rw [h, List.map_map]
    exact congrArg some (congrArg (Share.mk x) (List.map_id y))

/-- C6: encoding a share yields exactly the x byte followed by the y bytes in
order, and decoding that byte sequence returns an identical share. -/
theorem serialization_round_trip (s : Share) :
    shareToBytes s = s.x.val :: s.y.map GF256.val ∧
    shareFromBytes (shareToBytes s) = some s :=
  ⟨rfl, shareFromBytes_toBytes s⟩

/-- C5: decoding the empty byte sequence is the out-of-bounds read `s[0]` in
`From<&[u8]> for Share`: the code panics (modelled `none`) instead of
returning a `DecodeError` value. -/
theorem decode_empty_panics : shareFromBytes [] = none := rfl

/-- C10: share decoding performs no validation beyond non-emptiness: every
non-empty byte sequence decodes to the share whose x is the first byte — even
when that byte is 0 — and whose y is the remaining bytes in order. -/
theorem decode_no_validation (x : Fin 256) (rest : List (Fin 256)) :
    shareFromBytes (x :: rest) = some ⟨⟨x⟩, rest.map (fun v => ⟨v⟩)⟩ := rfl

/-! ## Configuration claims -/

/-- C3 counterexample: constructing the configuration with threshold 0
succeeds — `Sharks(pub u8)` has no validating constructor — and the resulting
configuration even generates shares; no ConfigurationError exists. -/
theorem sharks_zero_constructs :
    (Sharks.mk 0).threshold = 0 ∧
      (sharksDealer (Sharks.mk 0) [gfOfNat 7] (fun _ _ => gfOfNat 3)).length = 255 := by
  refine ⟨rfl, ?_⟩
  show (dealer_rng 0 [gfOfNat 7] _).length = 255
  unfold dealer_rng get_evaluator
  rw [List.length_map, List.length_range]

/-- C3 amended: construction never fails — the threshold is a bare public
byte, so every value in [0,255] (including 0) is accepted as-is, and with
threshold 0 recovery can never report insufficient shares. -/
theorem sharks_no_validation (t : Fin 256) :
    (Sharks.mk t).threshold = t ∧
      ∀ shares, sharksRecover (Sharks.mk 0) shares ≠ some (.error ()) := by
  refine ⟨rfl, ?_⟩
  intro shares
  show recover 0 shares ≠ some (.error ())
  unfold recover
  rw [if_neg (Nat.not_lt_zero _)]
  cases interpolate shares <;> simp

/-! ## Recovery error claims -/

/-- C2: recovery returns the insufficient-shares error exactly when the
number of pairwise-distinct x-coordinates is below the threshold; with at
least `k` distinct x-coordinates that error is never returned. -/
theorem recover_insufficient_iff (k : Nat) (shares : List Share) :
    recover k shares = some (.error ()) ↔ distinctX shares < k := by
  unfold recover
  by_cases h : distinctX shares < k
  · simp [h]
  · rw [if_neg h]
    cases interpolate shares <;> simp [h]

/-- C9 amended: the only explicit error `recover` ever returns is the
insufficient-shares error, produced exactly when the distinct-x count is
below the threshold; no malformed-input error exists (unequal y-lengths
either truncate to the first share's length or panic inside interpolation). -/
theorem recover_error_only_insufficient (k : Nat) (shares : List Share) (e : Unit)
    (h : recover k shares = some (.error e)) : distinctX shares < k := by
  unfold recover at h
  by_cases hc : distinctX shares < k
  · exact hc
  · rw [if_neg hc] at h
    cases interpolate shares <;> simp at h

theorem recover_error_only_insufficient_witness : distinctX ([] : List Share) < 5 :=
  recover_error_only_insufficient 5 [] () rfl

/-- C9 counterexample: threshold 1, one share with empty `y` and one with a
singleton `y` — the y-lengths disagree, the distinct-x check passes, and
`recover` returns a result (the empty secret) instead of failing with a
malformed-input error. -/
theorem recover_unequal_lengths_result :
    recover 1 [⟨gfOfNat 1, []⟩, ⟨gfOfNat 2, [gfOfNat 5]⟩] = some (.ok []) := by rfl

/-- C4 counterexample: threshold 1, two shares with the same x = 1 but
different y values — at least one distinct x-coordinate is present, and
`recover` interpolates over the full duplicated list and returns `Ok`
instead of rejecting the duplicate x. -/
theorem recover_duplicate_ok :
    recover 1 [⟨gfOfNat 1, [gfOfNat 0]⟩, ⟨gfOfNat 1, [gfOfNat 1]⟩] =
      some (.ok [gfOfNat 1]) := by rfl

/-- C4 amended: duplicate x-coordinates are never rejected: whenever the
distinct-x count reaches the threshold, `recover` proceeds and returns
exactly the interpolation over the full, non-deduplicated share list. -/
theorem recover_no_duplicate_rejection (k : Nat) (shares : List Share)
    (h : k ≤ distinctX shares) :
    recover k shares = (interpolate shares).map Except.ok := by
  unfold recover
  rw [if_neg (by omega)]

theorem recover_no_duplicate_rejection_witness :
    recover 1 [⟨gfOfNat 1, [gfOfNat 2]⟩, ⟨gfOfNat 1, [gfOfNat 3]⟩] =
      (interpolate [⟨gfOfNat 1, [gfOfNat 2]⟩, ⟨gfOfNat 1, [gfOfNat 3]⟩]).map Except.ok :=
  recover_no_duplicate_rejection 1 _ (by rfl)

/-! ## Polynomial-coefficient claim (historical big-prime variant) -/

/-- C8: `compute_coeffs` returns exactly `k` coefficients (highest degree
first), the final, degree-0 one being the secret `s`, and every one of the
other `k - 1` drawn from the sampler's range [1, p) — nonzero field values. -/
theorem compute_coeffs_spec (s k p : Nat) (sample : Nat → Nat)
    (hk : 1 ≤ k) (hs : ∀ i, 1 ≤ sample i ∧ sample i < p) :
    (compute_coeffs s k p sample).2.length = k ∧
    (compute_coeffs s k p sample).2.getLast? = some s ∧
    ∀ c ∈ (compute_coeffs s k p sample).2.dropLast, c ≠ 0 ∧ c < p := by
  refine ⟨?_, ?_, ?_⟩
  · show ((List.range (k - 1)).map sample ++ [s]).length = k
    simp only [List.length_append, List.length_map, List.length_range,
      List.length_singleton]
    omega
  · show ((List.range (k - 1)).map sample ++ [s]).getLast? = some s
    rw [List.getLast?_concat]
  · show ∀ c ∈ ((List.range (k - 1)).map sample ++ [s]).dropLast, c ≠ 0 ∧ c < p
    rw [List.dropLast_concat]
    intro c hc
    obtain ⟨i, _, rfl⟩ := List.mem_map.mp hc
    exact ⟨by have := (hs i).1; omega, (hs i).2⟩

theorem compute_coeffs_spec_witness :
    (compute_coeffs 1 4 7 (fun _ => 3)).2.length = 4 ∧
    (compute_coeffs 1 4 7 (fun _ => 3)).2.getLast? = some 1 ∧
    ∀ c ∈ (compute_coeffs 1 4 7 (fun _ => 3)).2.dropLast, c ≠ 0 ∧ c < 7 :=
  compute_coeffs_spec 1 4 7 (fun _ => 3) (by norm_num)
    (fun i => ⟨by norm_num, by norm_num⟩)

/-! ## Dealer x-coordinate invariant -/

theorem gfOfNat_val (n : Nat) (h : n < 256) : (gfOfNat n).val.val = n := by
  show n % 256 = n
  omega

theorem dealer_rng_map_x (k : Nat) (secret : List GF256) (rand : Nat → Nat → GF256) :
    (dealer_rng k secret rand).map Share.x =
      (List.range 255).map (fun i => gfOfNat (i + 1)) := by
  unfold dealer_rng get_evaluator
  rw [List.map_map]
  rfl

/-- C7: within one dealer run the 255 emitted shares carry the x-coordinates
1, 2, …, 255 exactly, in strictly increasing order, with no repetition and
without x = 0. -/
theorem dealer_x_invariant (k : Nat) (secret : List GF256) (rand : Nat → Nat → GF256) :
    (dealer_rng k secret rand).length = 255 ∧
    (dealer_rng k secret rand).map Share.x =
      (List.range 255).map (fun i => gfOfNat (i + 1)) ∧
    List.Chain' (fun a b : Share => a.x.val.val < b.x.val.val)
      (dealer_rng k secret rand) ∧
    (0 : GF256) ∉ (dealer_rng k secret rand).map Share.x ∧
    ((dealer_rng k secret rand).map Share.x).Nodup := by
  have hmap := dealer_rng_map_x k secret rand
  have hlen : (dealer_rng k secret rand).length = 255 := by
    have := congrArg List.length hmap
    rw [List.length_map, List.length_map, List.length_range] at this
    exact this
  refine ⟨hlen, hmap, ?_, ?_, ?_⟩
  · have hchain : List.Chain' (fun a b : GF256 => a.val.val < b.val.val)
        ((dealer_rng k secret rand).map Share.x) := by
      rw [hmap]
      rw [List.chain'_map]
      apply List.Pairwise.chain'
      have hp := List.pairwise_lt_range 255
      apply hp.imp_of_mem
      intro a b ha hb hab
      have ha' : a < 255 := List.mem_range.mp ha
      have hb' : b < 255 := List.mem_range.mp hb
      rw [gfOfNat_val _ (by omega), gfOfNat_val _ (by omega)]
      omega
    rw [List.chain'_map] at hchain
    exact hchain
  · rw [hmap]
    intro hmem
    obtain ⟨i, hi, hzero⟩ := List.mem_map.mp hmem
    have hi' : i < 255 := List.mem_range.mp hi
    have hvv : (gfOfNat (i + 1)).val.val = (0 : GF256).val.val := by rw [hzero]
    rw [gfOfNat_val _ (by omega)] at hvv
    have h0 : (0 : GF256).val.val = 0 := rfl
    omega
  · rw [hmap]
    apply List.Nodup.map_on
    · intro a ha b hb hab
      have ha' : a < 255 := List.mem_range.mp ha
      have hb' : b < 255 := List.mem_range.mp hb
      have hvv : (gfOfNat (a + 1)).val.val = (gfOfNat (b + 1)).val.val := by rw [hab]
      rw [gfOfNat_val _ (by omega), gfOfNat_val _ (by omega)] at hvv
      omega
    · exact List.nodup_range 255

/-! ## List/Finset bridges and Horner polynomials -/

theorem list_range_sum {M : Type} [AddCommMonoid M] (n : Nat) (f : Nat → M) :
    ((List.range n).map f).sum = ∑ j ∈ Finset.range n, f j := by
  induction n with
  | zero => simp
  | succ n ih =>
    rw [List.range_succ, List.map_append, List.sum_append, Finset.sum_range_succ, ih]
    simp

theorem list_range_filter_prod {M : Type} [CommMonoid M] (n : Nat) (q : Nat → Prop)
    [DecidablePred q] (f : Nat → M) :
    (((List.range n).filter (fun j => q j)).map f).prod =
      ∏ j ∈ (Finset.range n).filter q, f j := by
  induction n with
  | zero => simp
  | succ n ih =>
    rw [List.range_succ, List.filter_append, List.map_append, List.prod_append, ih,
      Finset.range_succ, Finset.filter_insert]
    by_cases hq : q n
    · rw [if_pos hq, Finset.prod_insert (by simp), mul_comm]
      simp [hq]
    · rw [if_neg hq]
      simp [hq]

/-- The polynomial denoted by a highest-degree-first coefficient list (the
Horner fold on `Polynomial.X`). -/
noncomputable def toPoly (coeffs : List GF256) : Polynomial GF256 :=
  coeffs.foldl (fun acc c => acc * Polynomial.X + Polynomial.C c) 0

theorem toPoly_eval (coeffs : List GF256) (x : GF256) :
    (toPoly coeffs).eval x = hornerEval coeffs x := by
  suffices h : ∀ acc : Polynomial GF256,
      (coeffs.foldl (fun a c => a * Polynomial.X + Polynomial.C c) acc).eval x =
        coeffs.foldl (fun a c => a * x + c) (acc.eval x) by
    have h0 := h 0
    rw [Polynomial.eval_zero] at h0
    exact h0
  induction coeffs with
  | nil => intro acc; rfl
  | cons c cs ih =>
    intro acc
    show (cs.foldl _ (acc * Polynomial.X + Polynomial.C c)).eval x = _
    rw [ih]
    simp

theorem withbot_succ_lt (x : WithBot Nat) (d : Nat) (h : x < (d : WithBot Nat)) :
    x + 1 < ((d + 1 : Nat) : WithBot Nat) := by
  rw [Nat.cast_withBot] at h
  rw [Nat.cast_withBot]
  cases x with
  | bot =>
    rw [WithBot.bot_add]
    exact WithBot.bot_lt_coe _
  | coe m =>
    rw [WithBot.coe_lt_coe] at h
    rw [← WithBot.coe_one, ← WithBot.coe_add, WithBot.coe_lt_coe]
    omega

theorem toPoly_degree_aux (coeffs : List GF256) (acc : Polynomial GF256) (d : Nat)
    (hd : acc.degree < (d : WithBot Nat)) :
    (coeffs.foldl (fun a c => a * Polynomial.X + Polynomial.C c) acc).degree <
      ((d + coeffs.length : Nat) : WithBot Nat) := by
  induction coeffs generalizing acc d with
  | nil => simpa using hd
  | cons c cs ih =>
    show (cs.foldl _ (acc * Polynomial.X + Polynomial.C c)).degree < _
    have hstep : (acc * Polynomial.X + Polynomial.C c).degree < ((d + 1 : Nat) : WithBot Nat) := by
      apply lt_of_le_of_lt (Polynomial.degree_add_le _ _)
      rw [max_lt_iff]
      constructor
      · apply lt_of_le_of_lt (Polynomial.degree_mul_le _ _)
        rw [Polynomial.degree_X]
        exact withbot_succ_lt _ _ hd
      · apply lt_of_le_of_lt Polynomial.degree_C_le
        rw [Nat.cast_withBot, ← WithBot.coe_zero, WithBot.coe_lt_coe]
        omega
    have hrec := ih (acc * Polynomial.X + Polynomial.C c) (d + 1) hstep
    have harith : d + 1 + cs.length = d + (cs.length + 1) := by omega
    rw [harith] at hrec
    exact hrec

theorem toPoly_degree (coeffs : List GF256) :
    (toPoly coeffs).degree < ((coeffs.length : Nat) : WithBot Nat) := by
  have h := toPoly_degree_aux coeffs 0 0 (by
    rw [Polynomial.degree_zero, Nat.cast_withBot]
    exact WithBot.bot_lt_coe _)
  rw [Nat.zero_add] at h
  exact h

theorem hornerEval_concat_zero (cs : List GF256) (s : GF256) :
    hornerEval (cs ++ [s]) 0 = s := by
  unfold hornerEval
  rw [List.foldl_append]
  show (cs.foldl _ 0) * 0 + s = s
  rw [mul_zero, zero_add]

/-- Lagrange evaluation at x = 0: for pairwise-distinct nodes `xs` and a
polynomial `p` of degree below `xs.length`, the field sum of
`(∏ basis factors) * p(x_i)` over all nodes recovers `p(0)`.  This is the
correctness core of the recoverer (spec section 4.3). -/
theorem lagrange_eval_zero (xs : List GF256) (hnd : xs.Nodup) (p : Polynomial GF256)
    (hdeg : p.degree < ((xs.length : Nat) : WithBot Nat)) :
    ((List.range xs.length).map (fun i =>
        (((List.range xs.length).filter
            (fun j => xs.getD j 0 ≠ xs.getD i 0)).map
          (fun j => gdiv (xs.getD j 0) (gsub (xs.getD j 0) (xs.getD i 0)))).prod *
          p.eval (xs.getD i 0))).sum = p.eval 0 := by
  have hget : ∀ i (hi : i < xs.length), xs.getD i 0 = xs.get ⟨i, hi⟩ := by
    intro i hi
    exact List.getD_eq_get xs 0 hi
  have hInj : Set.InjOn (fun i => xs.getD i 0) (Finset.range xs.length) := by
    intro i hi j hj hij
    have hi' : i < xs.length := by
      have := Finset.mem_coe.mp hi
      exact Finset.mem_range.mp this
    have hj' : j < xs.length := by
      have := Finset.mem_coe.mp hj
      exact Finset.mem_range.mp this
    have hij' : xs.getD i 0 = xs.getD j 0 := hij
    rw [hget i hi', hget j hj'] at hij'
    have := (List.Nodup.get_inj_iff hnd).mp hij'
    exact congrArg Fin.val this
  have key : p = Lagrange.interpolate (Finset.range xs.length) (fun i => xs.getD i 0)
      (fun i => p.eval (xs.getD i 0)) :=
    Lagrange.eq_interpolate hInj (by rw [Finset.card_range]; exact hdeg)
  have heval : p.eval 0 = ∑ i ∈ Finset.range xs.length,
      p.eval (xs.getD i 0) *
        (Lagrange.basis (Finset.range xs.length) (fun i => xs.getD i 0) i).eval 0 := by
    conv_lhs => rw [key]
    rw [Lagrange.interpolate_apply, Polynomial.eval_finset_sum]
    refine Finset.sum_congr rfl fun i _ => ?_
    rw [Polynomial.eval_mul, Polynomial.eval_C]
  rw [list_range_sum, heval]
  refine Finset.sum_congr rfl fun i hi => ?_
  have hi' : i < xs.length := Finset.mem_range.mp hi
  have hbasis : (Lagrange.basis (Finset.range xs.length) (fun i => xs.getD i 0) i).eval 0 =
      ∏ j ∈ (Finset.range xs.length).erase i,
        (xs.getD i 0 - xs.getD j 0)⁻¹ * (0 - xs.getD j 0) := by
    unfold Lagrange.basis
    rw [Polynomial.eval_prod]
    refine Finset.prod_congr rfl fun j _ => ?_
    simp [Lagrange.basisDivisor]
  have hfilter : (Finset.range xs.length).filter (fun j => xs.getD j 0 ≠ xs.getD i 0) =
      (Finset.range xs.length).erase i := by
    ext j
    simp only [Finset.mem_filter, Finset.mem_erase, Finset.mem_range]
    constructor
    · rintro ⟨hj, hne⟩
      refine ⟨?_, hj⟩
      rintro rfl
      exact hne rfl
    · rintro ⟨hne, hj⟩
      refine ⟨hj, fun heq => hne ?_⟩
      exact hInj (Finset.mem_coe.mpr (Finset.mem_range.mpr hj))
        (Finset.mem_coe.mpr (Finset.mem_range.mpr hi')) heq
  rw [list_range_filter_prod xs.length (fun j => xs.getD j 0 ≠ xs.getD i 0)
    (fun j => gdiv (xs.getD j 0) (gsub (xs.getD j 0) (xs.getD i 0))), hfilter, hbasis,
    mul_comm]
  congr 1
  refine Finset.prod_congr rfl fun j hj => ?_
  obtain ⟨hji, hjr⟩ := Finset.mem_erase.mp hj
  have hj' : j < xs.length := Finset.mem_range.mp hjr
  have hne : xs.getD j 0 ≠ xs.getD i 0 := by
    intro heq
    exact hji (hInj (Finset.mem_coe.mpr (Finset.mem_range.mpr hj'))
      (Finset.mem_coe.mpr (Finset.mem_range.mpr hi')) heq)
  have hsubne : xs.getD j 0 - xs.getD i 0 ≠ 0 := sub_ne_zero_of_ne hne
  rw [gsub_eq, gdiv_eq _ _ hsubne, div_eq_mul_inv]
  have hswap : xs.getD i 0 - xs.getD j 0 = xs.getD j 0 - xs.getD i 0 := by
    rw [gf_sub_eq, gf_sub_eq, add_comm]
  rw [hswap]
  have hzs : (0 : GF256) - xs.getD j 0 = xs.getD j 0 := by
    rw [zero_sub, gf_neg_eq]
  rw [hzs, mul_comm]

/-! ## Round trip (C1) -/

theorem getSh_x_eq (shares : List Share) (j : Nat) :
    (getSh shares j).x = (shares.map Share.x).getD j 0 := by
  by_cases hj : j < shares.length
  · unfold getSh
    rw [List.getD_eq_get _ _ hj, List.getD_eq_get _ _ (by rw [List.length_map]; omega)]
    simp
  · unfold getSh
    rw [List.getD_eq_default _ _ (by omega), List.getD_eq_default _ _ (by rw [List.length_map]; omega)]

theorem getD_map_lt {A B : Type} (f : A → B) (l : List A) (i : Nat) (hi : i < l.length)
    (dA : A) (dB : B) : (l.map f).getD i dB = f (l.getD i dA) := by
  rw [List.getD_eq_get _ _ (by rw [List.length_map]; omega), List.getD_eq_get _ _ hi]
  simp

theorem interpolate_uniform (shares : List Share) (L : Nat) (hne : shares ≠ [])
    (hall : ∀ s ∈ shares, s.y.length = L) :
    interpolate shares = some ((List.range L).map (fun c =>
      ((List.range shares.length).map
        (fun i => basisAt shares i * (getSh shares i).y.getD c 0)).sum)) := by
  obtain ⟨s0, rest, rfl⟩ := List.exists_cons_of_ne_nil hne
  have h0 : s0.y.length = L := hall s0 (List.mem_cons_self s0 rest)
  show (if (s0 :: rest).all (fun s => s0.y.length ≤ s.y.length) then _ else none) = _
  have hguard : (s0 :: rest).all (fun s => decide (s0.y.length ≤ s.y.length)) = true := by
    rw [List.all_eq_true]
    intro s hs
    rw [decide_eq_true_eq, hall s hs, h0]
  rw [hguard]
  simp only [if_true]
  rw [h0]

theorem dealer_rng_length (k : Nat) (secret : List GF256) (rand : Nat → Nat → GF256) :
    (dealer_rng k secret rand).length = 255 := by
  unfold dealer_rng get_evaluator
  rw [List.length_map, List.length_range]

theorem dealer_rng_getSh (k : Nat) (secret : List GF256) (rand : Nat → Nat → GF256)
    (i : Nat) (hi : i < 255) :
    getSh (dealer_rng k secret rand) i =
      ⟨gfOfNat (i + 1), ((List.range secret.length).map
        (fun c => random_polynomial (secret.getD c 0) k (rand c))).map
          (fun p => hornerEval p (gfOfNat (i + 1)))⟩ := by
  unfold getSh dealer_rng get_evaluator
  rw [List.getD_eq_get _ _ (by rw [List.length_map, List.length_range]; omega)]
  simp

theorem gfOfNat_succ_inj (a b : Nat) (ha : a < 255) (hb : b < 255)
    (h : gfOfNat (a + 1) = gfOfNat (b + 1)) : a = b := by
  have hvv : (gfOfNat (a + 1)).val.val = (gfOfNat (b + 1)).val.val := by rw [h]
  show a = b
  have h1 : (a + 1) % 256 = a + 1 := by omega
  have h2 : (b + 1) % 256 = b + 1 := by omega
  have : (a + 1) % 256 = (b + 1) % 256 := hvv
  omega

/-- C1: for any secret, any threshold 1 ≤ k ≤ 255, any randomness and any
selection of k distinct dealer shares (whose x-coordinates are then pairwise
distinct), `recover` returns exactly the original secret. -/
theorem round_trip (secret : List GF256) (k : Nat) (hk1 : 1 ≤ k) (hk255 : k ≤ 255)
    (rand : Nat → Nat → GF256) (idxs : List Nat)
    (hlen : idxs.length = k) (hnd : idxs.Nodup) (hbound : ∀ i ∈ idxs, i < 255) :
    recover k (idxs.map (fun i => getSh (dealer_rng k secret rand) i)) =
      some (Except.ok secret) := by
  set polys := (List.range secret.length).map
    (fun c => random_polynomial (secret.getD c 0) k (rand c)) with hpolys
  set sub := idxs.map (fun i => getSh (dealer_rng k secret rand) i) with hsubdef
  have hsublen : sub.length = k := by rw [hsubdef, List.length_map, hlen]
  have hpolyslen : polys.length = secret.length := by
    rw [hpolys, List.length_map, List.length_range]
  -- the x-coordinates of the selected shares
  have hmapx : sub.map Share.x = idxs.map (fun i => gfOfNat (i + 1)) := by
    rw [hsubdef, List.map_map]
    apply List.map_congr_left
    intro i hi
    show (getSh (dealer_rng k secret rand) i).x = _
    rw [dealer_rng_getSh k secret rand i (hbound i hi)]
  have hnodx : (sub.map Share.x).Nodup := by
    rw [hmapx]
    apply List.Nodup.map_on _ hnd
    intro a ha b hb hab
    exact gfOfNat_succ_inj a b (hbound a ha) (hbound b hb) hab
  have hdx : distinctX sub = k := by
    unfold distinctX
    rw [List.dedup_eq_self.mpr hnodx, List.length_map, hsublen]
  -- every selected share carries one y-byte per secret chunk
  have hally : ∀ s ∈ sub, s.y.length = secret.length := by
    intro s hs
    rw [hsubdef] at hs
    obtain ⟨i, hi, rfl⟩ := List.mem_map.mp hs
    rw [dealer_rng_getSh k secret rand i (hbound i hi)]
    show (polys.map _).length = _
    rw [List.length_map, hpolyslen]
  have hne : sub ≠ [] := by
    intro h
    rw [h] at hsublen
    simp at hsublen
    omega
  unfold recover
  rw [if_neg (by omega), interpolate_uniform sub secret.length hne hally]
  show some (Except.ok _) = some (Except.ok secret)
  congr 1
  congr 1
  -- the recovered byte list equals the secret
  apply List.ext_getElem
  · rw [List.length_map, List.length_range]
  · intro c hc hcs
    rw [List.getElem_map, List.getElem_range]
    have hcs' : c < secret.length := hcs
    -- identify the y-bytes with polynomial evaluations
    have hxm : ∀ i, i < k → (getSh sub i).x = (sub.map Share.x).getD i 0 :=
      fun i _ => getSh_x_eq sub i
    set xs := sub.map Share.x with hxs
    have hxslen : xs.length = k := by rw [hxs, List.length_map, hsublen]
    set coeffs := random_polynomial (secret.getD c 0) k (rand c) with hcoeffs
    have hcoeffslen : coeffs.length = k := by
      rw [hcoeffs]
      unfold random_polynomial
      rw [List.length_append, List.length_map, List.length_range]
      simp
      omega
    have hyval : ∀ i, i < k →
        (getSh sub i).y.getD c 0 = hornerEval coeffs (xs.getD i 0) := by
      intro i hik
      have hilt : i < idxs.length := by omega
      have hsubget : getSh sub i = getSh (dealer_rng k secret rand) (idxs.getD i 0) := by
        unfold getSh
        rw [hsubdef]
        rw [getD_map_lt _ idxs i hilt 0 (Share.mk 0 [])]
        rfl
      have hidxb : idxs.getD i 0 < 255 := by
        apply hbound
        rw [List.getD_eq_get _ _ hilt]
        exact List.get_mem idxs i hilt
      have hxsget : xs.getD i 0 = gfOfNat (idxs.getD i 0 + 1) := by
        rw [hmapx, getD_map_lt _ idxs i hilt 0 0]
      rw [hsubget, dealer_rng_getSh k secret rand (idxs.getD i 0) hidxb, hxsget]
      show (polys.map (fun p => hornerEval p (gfOfNat (idxs.getD i 0 + 1)))).getD c 0 = _
      rw [getD_map_lt _ polys c (by omega) [] 0]
      congr 1
      rw [hpolys, getD_map_lt (fun c => random_polynomial (secret.getD c 0) k (rand c))
        (List.range secret.length) c (by rw [List.length_range]; omega) 0 []]
      rw [List.getD_eq_get (List.range secret.length) 0
        (by rw [List.length_range]; omega)]
      rw [List.get_range]
    have hdeg2 : (toPoly coeffs).degree < ((xs.length : Nat) : WithBot Nat) := by
      have h := toPoly_degree coeffs
      rw [hcoeffslen] at h
      rw [hxslen]
      exact h
    have hmain : ((List.range sub.length).map
        (fun i => basisAt sub i * (getSh sub i).y.getD c 0)).sum
        = ((List.range xs.length).map (fun i =>
            (((List.range xs.length).filter
                (fun j => xs.getD j 0 ≠ xs.getD i 0)).map
              (fun j => gdiv (xs.getD j 0) (gsub (xs.getD j 0) (xs.getD i 0)))).prod *
              (toPoly coeffs).eval (xs.getD i 0))).sum := by
      rw [show sub.length = xs.length by omega]
      apply congrArg List.sum
      apply List.map_congr_left
      intro i hi
      have hik : i < k := by
        have := List.mem_range.mp hi
        omega
      rw [hyval i hik, toPoly_eval]
      congr 1
      unfold basisAt
      rw [show sub.length = xs.length by omega]
      simp only [getSh_x_eq, ← hxs]
    rw [hmain, lagrange_eval_zero xs hnodx (toPoly coeffs) hdeg2, toPoly_eval, hcoeffs]
    unfold random_polynomial
    rw [hornerEval_concat_zero]
    rw [List.getD_eq_get _ _ hcs']
    rfl

theorem round_trip_witness :
    recover 2 (([0, 1] : List Nat).map
      (fun i => getSh (dealer_rng 2 [gfOfNat 1, gfOfNat 2] (fun _ _ => gfOfNat 7)) i)) =
      some (Except.ok [gfOfNat 1, gfOfNat 2]) :=
  round_trip [gfOfNat 1, gfOfNat 2] 2 (by norm_num) (by norm_num)
    (fun _ _ => gfOfNat 7) [0, 1] (by rfl) (by decide) (by decide)
